import Mathlib

/-!
Verification development for `src/systems/trajectories/PiecewisePolynomial.h`
(the drake piecewise-polynomial trajectory type).

The repository ships only the class declaration; every method body is absent.
Following the project's specification (spec.md), we model the behaviour of each
declared method from the spec's words, over a shallow embedding:

* a single-variable polynomial (`Polynomial<CoefficientType>`) is a list of
  rational coefficients in ascending degree order (`Poly`);
* an Eigen matrix of polynomials is a list of rows, each a list of entries
  (`PolyMatrix`); a numeric matrix is `NumMatrix`;
* a `PiecewisePolynomial` is its two data members: the per-segment
  `polynomials` and the breakpoint sequence `segment_times`;
* `double` arithmetic is idealised as exact rational arithmetic, and
  "within floating tolerance" statements are settled exactly;
* fallible operations return `Except PPError`, and the C++ in-place operators
  are state transformers returning the new receiver state.
-/

namespace Drake

/-- Coefficient list of a single-variable polynomial, ascending degree. -/
abbrev Poly := List ℚ

/-- A matrix of polynomial entries: list of rows. -/
abbrev PolyMatrix := List (List Poly)

/-- A numeric matrix: list of rows. -/
abbrev NumMatrix := List (List ℚ)

/-- Error taxonomy of the spec (§7). -/
inductive PPError where
  | invalidArgument
  | shapeMismatch
  | domainMismatch
  | indexOutOfRange
deriving DecidableEq

/-- Horner evaluation of a polynomial at a point. -/
def polyEval (p : Poly) (x : ℚ) : ℚ :=
  p.foldr (fun a acc => a + x * acc) 0

/-- Coefficientwise polynomial addition (shorter operand padded with zeros). -/
def polyAdd : Poly → Poly → Poly
  | [], q => q
  | p, [] => p
  | a :: p, b :: q => (a + b) :: polyAdd p q

/-- Polynomial product (convolution of coefficient lists). -/
def polyMul : Poly → Poly → Poly
  | [], _ => []
  | a :: p, q => polyAdd (q.map (fun b => a * b)) (0 :: polyMul p q)

/-- Coefficients of `p (X + c)`: the coordinate shift used when re-basing a
segment polynomial to a new segment start. -/
def polyShift : Poly → ℚ → Poly
  | [], _ => []
  | a :: p, c => polyAdd [a] (polyMul [c, 1] (polyShift p c))

/-- Helper for differentiation: coefficient at local index `i` of the input
has degree weight `k + i`. -/
def polyDerivAux : Nat → Poly → Poly
  | _, [] => []
  | k, a :: p => a * k :: polyDerivAux (k + 1) p

/-- Derivative of a polynomial with respect to its variable. -/
def polyDeriv (p : Poly) : Poly :=
  polyDerivAux 1 (p.drop 1)

/-- Helper for the antiderivative: divide each coefficient by its new degree. -/
def polyAntiderivAux : Nat → Poly → Poly
  | _, [] => []
  | k, a :: p => a / k :: polyAntiderivAux (k + 1) p

/-- Antiderivative of `p` whose value at `0` is the constant `c`. -/
def polyAntideriv (p : Poly) (c : ℚ) : Poly :=
  c :: polyAntiderivAux 1 p

/-- Row lengths of a matrix (its vertical shape profile). -/
def shapeOf (m : List (List α)) : List Nat :=
  m.map List.length

/-- Predicate: `m` is a well-formed `R × C` matrix. -/
def matShaped (R C : Nat) (m : List (List α)) : Prop :=
  m.length = R ∧ ∀ row ∈ m, row.length = C

instance (R C : Nat) (m : List (List α)) [DecidableEq Nat] :
    Decidable (matShaped R C m) := by
  unfold matShaped; infer_instance

/-- Column count read off a matrix value (0 when there are no rows). -/
def matCols (m : List (List α)) : Nat :=
  (m.headD []).length

/-- Evaluate every entry of a polynomial matrix at `x`. -/
def matEval (m : PolyMatrix) (x : ℚ) : NumMatrix :=
  m.map (fun row => row.map (fun p => polyEval p x))

/-- Entrywise polynomial addition of two matrices. -/
def matAdd (m₁ m₂ : PolyMatrix) : PolyMatrix :=
  List.zipWith (fun r₁ r₂ => List.zipWith polyAdd r₁ r₂) m₁ m₂

/-- Entry of a polynomial matrix, defaulting to the zero polynomial. -/
def polyEntry (m : PolyMatrix) (r c : Nat) : Poly :=
  (m.getD r []).getD c []

/-- Matrix product with polynomial entries: entry `(r, c)` is
`∑ k, A(r,k) * B(k,c)`. The result shape is `A.length × matCols B` by
construction. -/
def matMul (A B : PolyMatrix) : PolyMatrix :=
  (List.range A.length).map (fun r =>
    (List.range (matCols B)).map (fun c =>
      (List.range (matCols A)).foldr
        (fun k acc => polyAdd (polyMul (polyEntry A r k) (polyEntry B k c)) acc) []))

/-- Row of antiderivatives: entry `j` of the row gets constant `j` of the
constant row (0 when missing). -/
def rowAntideriv : List Poly → List ℚ → List Poly
  | [], _ => []
  | p :: ps, cs => polyAntideriv p (cs.headD 0) :: rowAntideriv ps (cs.drop 1)

/-- Per-entry antiderivative of `m` with constants of integration taken from
the numeric matrix `cm` (entry `(r, c)` of `cm` is the value at local 0 of
entry `(r, c)` of the result). -/
def matAntideriv : PolyMatrix → NumMatrix → PolyMatrix
  | [], _ => []
  | row :: rws, cm => rowAntideriv row (cm.headD []) :: matAntideriv rws (cm.drop 1)

/-- The `R × C` numeric matrix all of whose entries are `v` (used by the
scalar `integral` overload, which broadcasts its scalar start value). -/
def constMatrix (R C : Nat) (v : ℚ) : NumMatrix :=
  (List.range R).map (fun _ => (List.range C).map (fun _ => v))

/-- Modelled from the spec: the `PiecewisePolynomial` data members (the method
bodies are absent from the repository; only `PiecewisePolynomial.h` is
present). `polynomials` holds one polynomial matrix per segment, expressed in
the local coordinate `s = t - segment start`; `segment_times` is the
breakpoint sequence. -/
structure PiecewisePolynomial where
  polynomials : List PolyMatrix
  segment_times : List ℚ
deriving DecidableEq

/-- Number of stored segments. -/
def numberOfSegments (pp : PiecewisePolynomial) : Nat :=
  pp.polynomials.length

/-- Modelled from the spec: `rows()` returns R (0 for a zero-segment
instance). -/
def rows (pp : PiecewisePolynomial) : Nat :=
  (pp.polynomials.headD []).length

/-- Modelled from the spec: `cols()` returns C (0 for a zero-segment
instance). -/
def cols (pp : PiecewisePolynomial) : Nat :=
  matCols (pp.polynomials.headD [])

/-- The structural invariant of a valid instance (spec §3): one more
breakpoint than segments, strictly increasing breakpoints, at least one
segment, and every segment matrix a well-formed `rows × cols` matrix. -/
def Valid (pp : PiecewisePolynomial) : Prop :=
  pp.segment_times.length = pp.polynomials.length + 1 ∧
  List.Pairwise (· < ·) pp.segment_times ∧
  1 ≤ pp.polynomials.length ∧
  ∀ m ∈ pp.polynomials, matShaped (rows pp) (cols pp) m

instance (pp : PiecewisePolynomial) : Decidable (Valid pp) := by
  unfold Valid; infer_instance

/-- First breakpoint `t₀` (0 if none). -/
def startTime (pp : PiecewisePolynomial) : ℚ :=
  pp.segment_times.headD 0

/-- Last breakpoint `tₙ` (0 if none). -/
def endTime (pp : PiecewisePolynomial) : ℚ :=
  pp.segment_times.getD (pp.segment_times.length - 1) 0

/-- Modelled from the spec: `segmentIndexAtTime(t)` (body absent from the
repository). The binary search returns the index `i` with `tᵢ ≤ t < tᵢ₊₁`,
clamping `t < t₀` to 0 and `t ≥ tₙ` to `n - 1`; equivalently, the number of
internal breakpoints `t₁ … t_{n-1}` that are `≤ t`. -/
def segmentIndexAtTime (pp : PiecewisePolynomial) (t : ℚ) : Nat :=
  ((pp.segment_times.drop 1).dropLast).countP (fun ti => decide (ti ≤ t))

/-- Modelled from the spec: `segmentValueAtGlobalAbscissa` (body absent from
the repository): evaluate entry `(row, col)` of segment `segment_index` at the
local coordinate `t - t_{segment_index}`. -/
def segmentValueAtGlobalAbscissa (pp : PiecewisePolynomial) (segment_index : Nat)
    (t : ℚ) (row col : Nat) : ℚ :=
  polyEval (polyEntry (pp.polynomials.getD segment_index []) row col)
    (t - pp.segment_times.getD segment_index 0)

/-- Modelled from the spec: `value(t)` (body absent from the repository):
resolve the segment by lookup, then evaluate every entry of that segment's
matrix at the local coordinate. -/
def value (pp : PiecewisePolynomial) (t : ℚ) : NumMatrix :=
  let i := segmentIndexAtTime pp t
  matEval (pp.polynomials.getD i []) (t - pp.segment_times.getD i 0)

/-- Modelled from the spec: `scalarValue(t, row, col)` (body absent from the
repository): the single entry `(row, col)` of `value(t)`, failing with
`IndexOutOfRange` when `row`/`col` exceed `(R, C)`. Although declared
non-const in the header, the spec (§5) classifies it as a read-only
operation, so the state transformer returns the instance unchanged. -/
def scalarValue (pp : PiecewisePolynomial) (t : ℚ) (row col : Nat) :
    Except PPError ℚ × PiecewisePolynomial :=
  (if row < rows pp ∧ col < cols pp then
    .ok (segmentValueAtGlobalAbscissa pp (segmentIndexAtTime pp t) t row col)
   else .error .indexOutOfRange, pp)

/-- Modelled from the spec: `derivative(derivative_order)` (body absent from
the repository): same breakpoints; each entry replaced by its
`derivative_order`-th derivative in the local coordinate; order `≤ 0` is
treated as the identity. -/
def derivative (pp : PiecewisePolynomial) (derivative_order : Int) :
    PiecewisePolynomial :=
  if derivative_order ≤ 0 then pp
  else
    { polynomials := pp.polynomials.map (fun m =>
        m.map (fun row => row.map (fun p => polyDeriv^[derivative_order.toNat] p)))
      segment_times := pp.segment_times }

/-- Durations `tᵢ₊₁ - tᵢ` of the segments. -/
def segmentDurations (ts : List ℚ) : List ℚ :=
  List.zipWith (fun a b => b - a) ts (ts.drop 1)

/-- Modelled from the spec: the per-segment loop of `integral` (body absent
from the repository). Each segment matrix is replaced by the entrywise
antiderivative; the constants of integration start at `cm` for segment 0,
and for each later segment are the previous integrated segment's values at
its own end (local coordinate = that segment's duration), enforcing
continuity. -/
def integralSegs : List PolyMatrix → List ℚ → NumMatrix → List PolyMatrix
  | [], _, _ => []
  | m :: ms, durs, cm =>
    let im := matAntideriv m cm
    im :: integralSegs ms (durs.drop 1) (matEval im (durs.headD 0))

/-- Modelled from the spec: the matrix overload `integral(value_at_start_time)`
(body absent from the repository): same breakpoints, integrated segments with
continuity constants. -/
def integralMat (pp : PiecewisePolynomial) (value_at_start_time : NumMatrix) :
    PiecewisePolynomial :=
  { polynomials :=
      integralSegs pp.polynomials (segmentDurations pp.segment_times) value_at_start_time
    segment_times := pp.segment_times }

/-- Modelled from the spec: the scalar overload `integral(value_at_start_time)`
(body absent from the repository): the scalar start value is broadcast to all
entries. -/
def integral (pp : PiecewisePolynomial) (value_at_start_time : ℚ) :
    PiecewisePolynomial :=
  integralMat pp (constMatrix (rows pp) (cols pp) value_at_start_time)

/-- Modelled from the spec: `shiftRight(offset)` (body absent from the
repository): add `offset` to every breakpoint; polynomials unchanged. -/
def shiftRight (pp : PiecewisePolynomial) (offset : ℚ) : PiecewisePolynomial :=
  { polynomials := pp.polynomials
    segment_times := pp.segment_times.map (fun t => t + offset) }

/-- Modelled from the spec: the sorted union of two breakpoint sequences used
when combining operands with different breakpoints (§4.1 algebra, §9
breakpoint-union re-basing). -/
def mergeTimes (x y : List ℚ) : List ℚ :=
  ((x ++ y).mergeSort (fun a b => decide (a ≤ b))).dedup

/-- Modelled from the spec: re-base the operand's owning segment at global
time `u` to a new segment starting at `u`: locate the owning segment, then
coordinate-shift each entry by `u - (owning segment start)`. -/
def rebaseAt (pp : PiecewisePolynomial) (u : ℚ) : PolyMatrix :=
  let i := segmentIndexAtTime pp u
  let ti := pp.segment_times.getD i 0
  (pp.polynomials.getD i []).map (fun row => row.map (fun p => polyShift p (u - ti)))

/-- Modelled from the spec: the domain-compatibility requirement for the
binary operators — both operands must cover the same domain, else
`DomainMismatch`. -/
def sameDomain (a b : PiecewisePolynomial) : Prop :=
  startTime a = startTime b ∧ endTime a = endTime b

instance (a b : PiecewisePolynomial) : Decidable (sameDomain a b) := by
  unfold sameDomain; infer_instance

/-- Modelled from the spec: `operator+` (body absent from the repository):
requires identical `(R, C)` (`ShapeMismatch`) and a compatible domain
(`DomainMismatch`); the result lives on the sorted union of the breakpoints,
each new segment being the entrywise sum of the two re-based owning
segments. -/
def padd (a b : PiecewisePolynomial) : Except PPError PiecewisePolynomial :=
  if ¬ (rows a = rows b ∧ cols a = cols b) then .error .shapeMismatch
  else if ¬ sameDomain a b then .error .domainMismatch
  else
    let ts := mergeTimes a.segment_times b.segment_times
    .ok { polynomials := ts.dropLast.map (fun u => matAdd (rebaseAt a u) (rebaseAt b u))
          segment_times := ts }

/-- Modelled from the spec: `operator*` (body absent from the repository):
requires `cols a = rows b` (`ShapeMismatch`) and a compatible domain; the
result lives on the sorted union of the breakpoints, each new segment being
the matrix product of the two re-based owning segments. -/
def pmul (a b : PiecewisePolynomial) : Except PPError PiecewisePolynomial :=
  if ¬ cols a = rows b then .error .shapeMismatch
  else if ¬ sameDomain a b then .error .domainMismatch
  else
    let ts := mergeTimes a.segment_times b.segment_times
    .ok { polynomials := ts.dropLast.map (fun u => matMul (rebaseAt a u) (rebaseAt b u))
          segment_times := ts }

/-- Modelled from the spec: `operator+=` (body absent from the repository).
Per spec §9, the in-place form computes the new value and atomically swaps it
into the receiver; on failure the receiver keeps its prior state. The pair is
(new receiver state, error if any). -/
def paddAssign (a b : PiecewisePolynomial) : PiecewisePolynomial × Option PPError :=
  match padd a b with
  | .ok r => (r, none)
  | .error e => (a, some e)

/-- Modelled from the spec: `operator*=` (body absent from the repository),
with the same atomic-swap discipline as `operator+=`. -/
def pmulAssign (a b : PiecewisePolynomial) : PiecewisePolynomial × Option PPError :=
  match pmul a b with
  | .ok r => (r, none)
  | .error e => (a, some e)

/-- Absolute difference within tolerance, as a Bool. -/
def ratApprox (x y tol : ℚ) : Bool :=
  decide (|x - y| ≤ tol)

/-- Coefficientwise approximate equality of polynomials, missing high-order
coefficients counting as zero. -/
def polyApprox (p q : Poly) (tol : ℚ) : Bool :=
  (List.range (max p.length q.length)).all (fun i => ratApprox (p.getD i 0) (q.getD i 0) tol)

/-- Modelled from the spec: `isApprox(other, tol)` (body absent from the
repository): identical segment count, identical `(R, C)`, breakpoints
pairwise within `tol`, and every coefficient of every entry of every segment
within `tol`. -/
def isApprox (a b : PiecewisePolynomial) (tol : ℚ) : Bool :=
  numberOfSegments a = numberOfSegments b ∧
  a.segment_times.length = b.segment_times.length ∧
  rows a = rows b ∧ cols a = cols b ∧
  (List.zipWith (fun x y => ratApprox x y tol) a.segment_times b.segment_times).all id ∧
  (List.zipWith (fun (m₁ m₂ : PolyMatrix) =>
      decide (shapeOf m₁ = shapeOf m₂) &&
      (List.zipWith (fun r₁ r₂ =>
          (List.zipWith (fun p q => polyApprox p q tol) r₁ r₂).all id) m₁ m₂).all id)
    a.polynomials b.polynomials).all id

/-- Shape in the sense of the constructor check: (row count, column count). -/
def matDims (m : PolyMatrix) : Nat × Nat :=
  (m.length, matCols m)

/-- Modelled from the spec: the matrix constructor (body absent from the
repository): fails with `InvalidArgument` when the breakpoint count is not
segment count + 1, when the breakpoints are not strictly increasing, or when
the matrix shapes differ across segments; otherwise stores both inputs
as-is. -/
def mkPiecewisePolynomial (polynomials : List PolyMatrix) (segment_times : List ℚ) :
    Except PPError PiecewisePolynomial :=
  if segment_times.length = polynomials.length + 1 ∧
      List.Pairwise (· < ·) segment_times ∧
      (∀ m ∈ polynomials, matDims m = matDims (polynomials.headD [])) then
    .ok { polynomials := polynomials, segment_times := segment_times }
  else .error .invalidArgument

/-! ### Concrete instances used for witnesses and counterexamples -/

/-- The spec §8 concrete scenario: breakpoints `[0, 1, 2]`, segment 0 entry
the polynomial `s`, segment 1 entry the constant `1`. -/
def ppS : PiecewisePolynomial :=
  { polynomials := [[[[0, 1]]], [[[1]]]], segment_times := [0, 1, 2] }

/-- The spec §8 addition scenario, first operand: constant 1 on `[0, 2]`. -/
def ppA : PiecewisePolynomial :=
  { polynomials := [[[[1]]]], segment_times := [0, 2] }

/-- The spec §8 addition scenario, second operand: constant 1 on
`[0, 1, 2]`. -/
def ppB : PiecewisePolynomial :=
  { polynomials := [[[[1]]], [[[1]]]], segment_times := [0, 1, 2] }

/-- The expected sum of `ppA` and `ppB`: constant 2 (with one trailing zero
coefficient produced by the re-basing coordinate shift) on breakpoints
`[0, 1, 2]`. -/
def ppAB : PiecewisePolynomial :=
  { polynomials := [[[[2, 0]]], [[[2, 0]]]], segment_times := [0, 1, 2] }

/-! ### Approximate-equality helper lemmas -/

lemma ratApprox_self (x tol : ℚ) (h : 0 ≤ tol) : ratApprox x x tol = true := by
  simp [ratApprox, sub_self, abs_zero, h]

lemma polyApprox_self (p : Poly) (tol : ℚ) (h : 0 ≤ tol) :
    polyApprox p p tol = true := by
  simp only [polyApprox, List.all_eq_true]
  intro i _
  exact ratApprox_self _ _ h

lemma all_zipWith_self {α : Type} (f : α → α → Bool) :
    ∀ l : List α, (∀ x ∈ l, f x x = true) → (List.zipWith f l l).all id = true := by
  intro l
  induction l with
  | nil => intro _; rfl
  | cons a l ih =>
    intro h
    simp only [List.zipWith_cons_cons, List.all_cons, id_eq, Bool.and_eq_true]
    exact ⟨h a (List.mem_cons_self a l), ih (fun x hx => h x (List.mem_cons_of_mem a hx))⟩

lemma isApprox_self (pp : PiecewisePolynomial) (tol : ℚ) (h : 0 ≤ tol) :
    isApprox pp pp tol = true := by
  unfold isApprox
  rw [decide_eq_true_eq]
  refine ⟨rfl, rfl, rfl, rfl, ?_, ?_⟩
  · exact all_zipWith_self _ _ (fun x _ => ratApprox_self x tol h)
  · refine all_zipWith_self _ _ (fun m _ => ?_)
    rw [Bool.and_eq_true]
    refine ⟨by simp, all_zipWith_self _ _ (fun r _ => ?_)⟩
    exact all_zipWith_self _ _ (fun p _ => polyApprox_self p tol h)

lemma shiftRight_shiftRight_neg (pp : PiecewisePolynomial) (c : ℚ) :
    shiftRight (shiftRight pp c) (-c) = pp := by
  cases pp with
  | mk polys ts =>
    simp [shiftRight, List.map_map, Function.comp_def, add_neg_cancel_right]

/-! ### Calculus helper lemmas -/

lemma polyDerivAux_polyAntiderivAux (p : Poly) :
    ∀ k : Nat, 1 ≤ k → polyDerivAux k (polyAntiderivAux k p) = p := by
  induction p with
  | nil => intro k _; rfl
  | cons a p ih =>
    intro k hk
    simp only [polyAntiderivAux, polyDerivAux]
    have hk0 : (k : ℚ) ≠ 0 := by
      exact_mod_cast Nat.one_le_iff_ne_zero.mp hk
    rw [div_mul_cancel₀ a hk0, ih (k + 1) (by omega)]

lemma polyDeriv_polyAntideriv (p : Poly) (c : ℚ) :
    polyDeriv (polyAntideriv p c) = p := by
  unfold polyDeriv polyAntideriv
  exact polyDerivAux_polyAntiderivAux p 1 le_rfl

lemma rowAntideriv_deriv (ps : List Poly) :
    ∀ cs : List ℚ, (rowAntideriv ps cs).map polyDeriv = ps := by
  induction ps with
  | nil => intro cs; rfl
  | cons p ps ih =>
    intro cs
    simp only [rowAntideriv, List.map_cons, polyDeriv_polyAntideriv, ih]

lemma matAntideriv_deriv (m : PolyMatrix) :
    ∀ cm : NumMatrix, (matAntideriv m cm).map (fun row => row.map polyDeriv) = m := by
  induction m with
  | nil => intro cm; rfl
  | cons row rws ih =>
    intro cm
    simp only [matAntideriv, List.map_cons, rowAntideriv_deriv, ih]

lemma integralSegs_deriv (ms : List PolyMatrix) :
    ∀ (durs : List ℚ) (cm : NumMatrix),
      (integralSegs ms durs cm).map (fun m => m.map (fun row => row.map polyDeriv)) = ms := by
  induction ms with
  | nil => intro durs cm; rfl
  | cons m ms ih =>
    intro durs cm
    simp only [integralSegs, List.map_cons, matAntideriv_deriv, ih]

lemma derivative_integralMat (pp : PiecewisePolynomial) (cm : NumMatrix) :
    derivative (integralMat pp cm) 1 = pp := by
  rw [derivative, if_neg (by decide)]
  cases pp with
  | mk polys ts =>
    simp only [integralMat]
    congr 1
    simpa [Function.iterate_one] using integralSegs_deriv polys (segmentDurations ts) cm

/-- Evaluating an antiderivative at local 0 returns its constant of
integration. -/
lemma polyEval_polyAntideriv_zero (p : Poly) (c : ℚ) :
    polyEval (polyAntideriv p c) 0 = c := by
  simp [polyAntideriv, polyEval]

lemma rowAntideriv_length (ps : List Poly) :
    ∀ cs : List ℚ, (rowAntideriv ps cs).length = ps.length := by
  induction ps with
  | nil => intro cs; rfl
  | cons p ps ih => intro cs; simp [rowAntideriv, ih]

lemma shapeOf_matAntideriv (m : PolyMatrix) :
    ∀ cm : NumMatrix, shapeOf (matAntideriv m cm) = shapeOf m := by
  induction m with
  | nil => intro cm; rfl
  | cons row rws ih =>
    intro cm
    simp [matAntideriv, shapeOf, rowAntideriv_length]
    simpa [shapeOf] using ih (cm.drop 1)

lemma shapeOf_matEval (m : PolyMatrix) (x : ℚ) : shapeOf (matEval m x) = shapeOf m := by
  simp [matEval, shapeOf, List.map_map, Function.comp_def]

lemma rowEval_rowAntideriv_zero (ps : List Poly) :
    ∀ cs : List ℚ, cs.length = ps.length →
      (rowAntideriv ps cs).map (fun p => polyEval p 0) = cs := by
  induction ps with
  | nil =>
    intro cs h
    rw [List.length_eq_zero.mp h]
    rfl
  | cons p ps ih =>
    intro cs h
    cases cs with
    | nil => cases h
    | cons c cs =>
      simp only [rowAntideriv, List.headD_cons, List.drop_succ_cons, List.drop_zero,
        List.map_cons, polyEval_polyAntideriv_zero]
      rw [ih cs (by simpa using h)]

lemma matEval_matAntideriv_zero (m : PolyMatrix) :
    ∀ cm : NumMatrix, shapeOf cm = shapeOf m → matEval (matAntideriv m cm) 0 = cm := by
  induction m with
  | nil =>
    intro cm h
    have : cm = [] := by simpa [shapeOf] using h
    rw [this]
    rfl
  | cons row rws ih =>
    intro cm h
    cases cm with
    | nil => simp [shapeOf] at h
    | cons crow cm =>
      simp only [shapeOf, List.map_cons, List.cons.injEq] at h
      simp only [matAntideriv, List.headD_cons, List.drop_succ_cons, List.drop_zero,
        matEval, List.map_cons]
      rw [rowEval_rowAntideriv_zero row crow h.1]
      have := ih cm (by simpa [shapeOf] using h.2)
      simpa [matEval] using this

lemma getD_drop_one (l : List ℚ) (i : Nat) (d : ℚ) :
    (l.drop 1).getD i d = l.getD (i + 1) d := by
  cases l with
  | nil => rfl
  | cons x xs => rfl

lemma getD_zero_headD (l : List ℚ) (d : ℚ) : l.getD 0 d = l.headD d := by
  cases l with
  | nil => rfl
  | cons x xs => rfl

lemma integralSegs_chain (ms : List PolyMatrix) :
    ∀ (durs : List ℚ) (cm : NumMatrix) (sh : List Nat),
      (∀ m ∈ ms, shapeOf m = sh) → shapeOf cm = sh →
      ∀ i, i + 1 < ms.length →
        matEval ((integralSegs ms durs cm).getD (i + 1) []) 0 =
          matEval ((integralSegs ms durs cm).getD i []) (durs.getD i 0) := by
  induction ms with
  | nil =>
    intro durs cm sh _ _ i hi
    simp at hi
  | cons m ms ih =>
    intro durs cm sh hms hcm i hi
    cases i with
    | zero =>
      cases ms with
      | nil => simp at hi
      | cons m₂ ms₂ =>
        simp only [integralSegs, List.getD_cons_succ, List.getD_cons_zero]
        rw [matEval_matAntideriv_zero]
        · rw [getD_zero_headD]
        · rw [shapeOf_matEval, shapeOf_matAntideriv]
          rw [hms m (List.mem_cons_self _ _), hms m₂ (by simp)]
    | succ i =>
      simp only [integralSegs, List.getD_cons_succ]
      rw [ih (durs.drop 1) (matEval (matAntideriv m cm) (durs.headD 0)) sh
        (fun x hx => hms x (List.mem_cons_of_mem m hx))
        (by rw [shapeOf_matEval, shapeOf_matAntideriv]; exact hms m (List.mem_cons_self _ _))
        i (by simpa using hi)]
      rw [getD_drop_one]

/-- Uniform validity gives the common shape profile `replicate R C`. -/
lemma matShaped_shapeOf {R C : Nat} {m : List (List α)} (h : matShaped R C m) :
    shapeOf m = List.replicate R C := by
  refine List.eq_replicate_iff.mpr ⟨by simpa [shapeOf] using h.1, ?_⟩
  intro b hb
  obtain ⟨row, hrow, rfl⟩ := List.mem_map.mp hb
  exact h.2 row hrow

lemma constMatrix_matShaped (R C : Nat) (v : ℚ) : matShaped R C (constMatrix R C v) := by
  constructor
  · simp [constMatrix]
  · intro row hrow
    obtain ⟨i, _, rfl⟩ := List.mem_map.mp hrow
    simp

/-! ### Segment-lookup helper lemmas -/

lemma pairwise_lt_getLast {l : List ℚ} (hl : List.Pairwise (· < ·) l) (hne : l ≠ []) :
    ∀ x ∈ l.dropLast, x < l.getLast hne := by
  intro x hx
  have hsplit := List.dropLast_append_getLast hne
  rw [← hsplit, List.pairwise_append] at hl
  exact hl.2.2 x hx _ (List.mem_singleton_self _)

lemma endTime_eq_getLast (pp : PiecewisePolynomial) (h : pp.segment_times ≠ []) :
    endTime pp = pp.segment_times.getLast h := by
  rw [endTime, List.getLast_eq_getElem,
    List.getD_eq_getElem _ _ (by have := List.length_pos.mpr h; omega)]

lemma internal_length (pp : PiecewisePolynomial) :
    ((pp.segment_times.drop 1).dropLast).length = pp.segment_times.length - 2 := by
  rw [List.length_dropLast, List.length_drop]
  omega

lemma getD_last_cons (t0 : ℚ) (rest : List ℚ) (hrne : rest ≠ []) :
    (t0 :: rest).getD ((t0 :: rest).length - 1) 0 = rest.getD (rest.length - 1) 0 := by
  obtain ⟨k, hk⟩ : ∃ k, rest.length = k + 1 :=
    ⟨rest.length - 1, by have := List.length_pos.mpr hrne; omega⟩
  simp only [List.length_cons, hk, Nat.add_sub_cancel, List.getD_cons_succ]

lemma segmentIndexAtTime_lt (pp : PiecewisePolynomial) (hv : Valid pp) (t : ℚ) :
    segmentIndexAtTime pp t < numberOfSegments pp := by
  have h1 : segmentIndexAtTime pp t ≤ ((pp.segment_times.drop 1).dropLast).length :=
    List.countP_le_length _
  rw [internal_length, hv.1] at h1
  have := hv.2.2.1
  unfold numberOfSegments
  omega

lemma segmentIndexAtTime_low (pp : PiecewisePolynomial) (hv : Valid pp)
    {t : ℚ} (h : t < startTime pp) : segmentIndexAtTime pp t = 0 := by
  rw [segmentIndexAtTime, List.countP_eq_zero]
  intro x hx
  simp only [decide_eq_true_eq, not_le]
  cases hts : pp.segment_times with
  | nil => rw [hts] at hx; cases hx
  | cons t0 rest =>
    rw [hts] at hx
    have hx' : x ∈ rest := List.mem_of_mem_dropLast hx
    have hpw := hv.2.1
    rw [hts, List.pairwise_cons] at hpw
    have h0 : startTime pp = t0 := by rw [startTime, hts, List.headD_cons]
    calc t < t0 := h0 ▸ h
      _ < x := hpw.1 x hx'

lemma segmentIndexAtTime_high (pp : PiecewisePolynomial) (hv : Valid pp)
    {t : ℚ} (h : endTime pp ≤ t) :
    segmentIndexAtTime pp t = numberOfSegments pp - 1 := by
  have hlen : pp.segment_times.length = numberOfSegments pp + 1 := hv.1
  rw [segmentIndexAtTime]
  have hcount : ∀ x ∈ (pp.segment_times.drop 1).dropLast, decide (x ≤ t) = true := by
    intro x hx
    simp only [decide_eq_true_eq]
    cases hts : pp.segment_times with
    | nil => rw [hts] at hx; cases hx
    | cons t0 rest =>
      have hrlen : rest.length = numberOfSegments pp := by
        rw [hts] at hlen
        simpa using hlen
      have hrne : rest ≠ [] := by
        rw [← List.length_pos, hrlen]
        exact hv.2.2.1
      have hpw : List.Pairwise (· < ·) rest := by
        have := hv.2.1
        rw [hts, List.pairwise_cons] at this
        exact this.2
      rw [hts] at hx
      have hx' : x ∈ rest.dropLast := hx
      have hxlast : x < rest.getD (rest.length - 1) 0 := by
        have := pairwise_lt_getLast hpw hrne x hx'
        rwa [List.getLast_eq_getElem,
          ← List.getD_eq_getElem rest 0 (by have := List.length_pos.mpr hrne; omega)] at this
      have hend : endTime pp = rest.getD (rest.length - 1) 0 := by
        simp only [endTime, hts]
        exact getD_last_cons t0 rest hrne
      calc x ≤ rest.getD (rest.length - 1) 0 := le_of_lt hxlast
        _ ≤ t := hend ▸ h
  rw [List.countP_eq_length.mpr hcount, internal_length, hlen]
  omega

/-! ### Validity-preservation helper lemmas -/

lemma mergeTimes_sorted (x y : List ℚ) : List.Pairwise (· < ·) (mergeTimes x y) := by
  have h1 : List.Pairwise (· ≤ ·) ((x ++ y).mergeSort (fun a b => decide (a ≤ b))) :=
    List.sorted_mergeSort' _
  have h2 : List.Pairwise (· ≤ ·) (mergeTimes x y) :=
    List.Pairwise.sublist (List.dedup_sublist _) h1
  have h3 : List.Pairwise (· ≠ ·) (mergeTimes x y) := List.nodup_dedup _
  exact (h2.and h3).imp (fun h => lt_of_le_of_ne h.1 h.2)

lemma mem_mergeTimes {x y : List ℚ} {a : ℚ} : a ∈ mergeTimes x y ↔ a ∈ x ∨ a ∈ y := by
  rw [mergeTimes, List.mem_dedup, (List.mergeSort_perm _ _).mem_iff, List.mem_append]

lemma two_le_length_of_two_mem {l : List ℚ} {a b : ℚ}
    (ha : a ∈ l) (hb : b ∈ l) (hab : a ≠ b) : 2 ≤ l.length := by
  cases l with
  | nil => cases ha
  | cons c l' =>
    cases l' with
    | nil =>
      rw [List.mem_singleton] at ha hb
      exact absurd (ha.trans hb.symm) hab
    | cons d l'' => simp only [List.length_cons]; omega

lemma valid_times_ne_nil (pp : PiecewisePolynomial) (hv : Valid pp) :
    pp.segment_times ≠ [] := by
  intro h
  have h1 := hv.1
  have h2 := hv.2.2.1
  rw [h] at h1
  simp only [List.length_nil] at h1
  omega

lemma startTime_mem (pp : PiecewisePolynomial) (hv : Valid pp) :
    startTime pp ∈ pp.segment_times := by
  cases hts : pp.segment_times with
  | nil => exact absurd hts (valid_times_ne_nil pp hv)
  | cons t0 rest =>
    rw [startTime, hts, List.headD_cons]
    exact List.mem_cons_self _ _

lemma endTime_mem (pp : PiecewisePolynomial) (hv : Valid pp) :
    endTime pp ∈ pp.segment_times := by
  have hne := valid_times_ne_nil pp hv
  rw [endTime, List.getD_eq_getElem _ _ (by have := List.length_pos.mpr hne; omega)]
  exact List.getElem_mem _

lemma startTime_lt_endTime (pp : PiecewisePolynomial) (hv : Valid pp) :
    startTime pp < endTime pp := by
  cases hts : pp.segment_times with
  | nil => exact absurd hts (valid_times_ne_nil pp hv)
  | cons t0 rest =>
    have hrne : rest ≠ [] := by
      intro h
      have h1 := hv.1
      have h2 := hv.2.2.1
      rw [hts, h] at h1
      simp only [List.length_cons, List.length_nil] at h1
      omega
    have hst : startTime pp = t0 := by rw [startTime, hts, List.headD_cons]
    have het : endTime pp = rest.getD (rest.length - 1) 0 := by
      simp only [endTime, hts]
      exact getD_last_cons t0 rest hrne
    have hmem : rest.getD (rest.length - 1) 0 ∈ rest := by
      rw [List.getD_eq_getElem _ _ (by have := List.length_pos.mpr hrne; omega)]
      exact List.getElem_mem _
    have hpw := hv.2.1
    rw [hts, List.pairwise_cons] at hpw
    rw [hst, het]
    exact hpw.1 _ hmem

lemma matShaped_of_shapeOf {R C : Nat} {m : List (List α)}
    (h : shapeOf m = List.replicate R C) : matShaped R C m := by
  constructor
  · have := congrArg List.length h
    simpa [shapeOf] using this
  · intro row hrow
    have : row.length ∈ shapeOf m := List.mem_map_of_mem List.length hrow
    rw [h] at this
    exact List.eq_of_mem_replicate this

lemma matShaped_cols_eq {R C : Nat} {m m' : List (List α)}
    (h : matShaped R C m) (h' : matShaped R C m') : matCols m = matCols m' := by
  cases m with
  | nil =>
    cases m' with
    | nil => rfl
    | cons r' l' =>
      exfalso
      have h1 := h.1
      have h2 := h'.1
      simp at h1
      rw [← h1] at h2
      simp at h2
  | cons r l =>
    cases m' with
    | nil =>
      exfalso
      have h1 := h.1
      have h2 := h'.1
      simp at h2
      rw [← h2] at h1
      simp at h1
    | cons r' l' =>
      have hr := h.2 r (List.mem_cons_self _ _)
      have hr' := h'.2 r' (List.mem_cons_self _ _)
      simp [matCols, hr, hr']

lemma matShaped_adjust {R C : Nat} {m m₀ : List (List α)}
    (hm : matShaped R C m) (hm₀ : matShaped R C m₀) :
    matShaped R (matCols m₀) m := by
  by_cases hR : R = 0
  · have hnil : m = [] := List.length_eq_zero.mp (by rw [hm.1, hR])
    subst hnil
    refine ⟨by simpa using hR.symm, ?_⟩
    intro row h
    cases h
  · cases m₀ with
    | nil =>
      exfalso
      have h0 := hm₀.1
      simp only [List.length_nil] at h0
      exact hR h0.symm
    | cons r₀ l₀ =>
      have hc : matCols (r₀ :: l₀) = C := by
        simp [matCols, hm₀.2 r₀ (List.mem_cons_self _ _)]
      rw [hc]
      exact hm

lemma valid_head_matShaped (pp : PiecewisePolynomial) (hv : Valid pp) :
    matShaped (rows pp) (cols pp) (pp.polynomials.headD []) := by
  cases hp : pp.polynomials with
  | nil =>
    exfalso
    have := hv.2.2.1
    rw [hp] at this
    simp at this
  | cons m ms =>
    rw [List.headD_cons]
    exact hv.2.2.2 m (by rw [hp]; exact List.mem_cons_self _ _)

lemma rebaseAt_matShaped (pp : PiecewisePolynomial) (hv : Valid pp) (u : ℚ) :
    matShaped (rows pp) (cols pp) (rebaseAt pp u) := by
  have hi : segmentIndexAtTime pp u < pp.polynomials.length := segmentIndexAtTime_lt pp hv u
  have hmem : pp.polynomials.getD (segmentIndexAtTime pp u) [] ∈ pp.polynomials := by
    rw [List.getD_eq_getElem _ _ hi]
    exact List.getElem_mem _
  have hm := hv.2.2.2 _ hmem
  simp only [rebaseAt]
  constructor
  · simpa using hm.1
  · intro row hrow
    obtain ⟨r0, hr0, rfl⟩ := List.mem_map.mp hrow
    simpa using hm.2 r0 hr0

lemma matAdd_row_lengths {C : Nat} :
    ∀ (m₁ m₂ : PolyMatrix), (∀ r ∈ m₁, r.length = C) → (∀ r ∈ m₂, r.length = C) →
      ∀ row ∈ matAdd m₁ m₂, row.length = C := by
  intro m₁
  induction m₁ with
  | nil => intro m₂ _ _ row h; cases h
  | cons r m ih =>
    intro m₂ h1 h2 row hrow
    cases m₂ with
    | nil => cases hrow
    | cons r₂ m₂ =>
      rcases List.mem_cons.mp hrow with rfl | hrow'
      · rw [List.length_zipWith, h1 r (List.mem_cons_self _ _),
          h2 r₂ (List.mem_cons_self _ _)]
        exact min_self C
      · exact ih m₂ (fun x hx => h1 x (List.mem_cons_of_mem _ hx))
          (fun x hx => h2 x (List.mem_cons_of_mem _ hx)) row hrow'

lemma matAdd_matShaped {R C : Nat} {m₁ m₂ : PolyMatrix}
    (h₁ : matShaped R C m₁) (h₂ : matShaped R C m₂) : matShaped R C (matAdd m₁ m₂) := by
  constructor
  · rw [matAdd, List.length_zipWith, h₁.1, h₂.1]
    exact min_self R
  · exact matAdd_row_lengths m₁ m₂ h₁.2 h₂.2

lemma matMul_matShaped (A B : PolyMatrix) :
    matShaped A.length (matCols B) (matMul A B) := by
  constructor
  · simp [matMul]
  · intro row hrow
    obtain ⟨r, _, rfl⟩ := List.mem_map.mp hrow
    simp

lemma uniform_valid_of (R C : Nat) {polys : List PolyMatrix} {ts : List ℚ}
    (hlen : 2 ≤ ts.length) (hsort : List.Pairwise (· < ·) ts)
    (hp : polys.length = ts.length - 1)
    (hsh : ∀ m ∈ polys, matShaped R C m) :
    Valid { polynomials := polys, segment_times := ts } := by
  have hpne : polys ≠ [] := by
    rw [← List.length_pos, hp]
    omega
  have hhead : polys.headD [] ∈ polys := by
    cases hpl : polys with
    | nil => exact absurd hpl hpne
    | cons m ms => rw [List.headD_cons]; exact List.mem_cons_self _ _
  have hheadsh := hsh _ hhead
  refine ⟨?_, hsort, ?_, ?_⟩
  · show ts.length = polys.length + 1
    omega
  · show 1 ≤ polys.length
    omega
  intro m hm
  have hmsh := hsh m hm
  have hrows : rows { polynomials := polys, segment_times := ts } = R := by
    simp only [rows]
    exact hheadsh.1
  have hcols : cols { polynomials := polys, segment_times := ts } =
      matCols (polys.headD []) := rfl
  rw [hrows, hcols]
  exact matShaped_adjust hmsh hheadsh

lemma merged_two_le_length {a b : PiecewisePolynomial} (ha : Valid a) :
    2 ≤ (mergeTimes a.segment_times b.segment_times).length :=
  two_le_length_of_two_mem
    (mem_mergeTimes.mpr (Or.inl (startTime_mem a ha)))
    (mem_mergeTimes.mpr (Or.inl (endTime_mem a ha)))
    (ne_of_lt (startTime_lt_endTime a ha))

lemma padd_valid {a b r : PiecewisePolynomial} (ha : Valid a) (hb : Valid b)
    (h : padd a b = .ok r) : Valid r := by
  unfold padd at h
  split_ifs at h with h1 h2
  simp only [Except.ok.injEq] at h
  subst h
  refine uniform_valid_of (rows a) (cols a)
    (merged_two_le_length ha) (mergeTimes_sorted _ _) ?_ ?_
  · rw [List.length_map, List.length_dropLast]
  · intro m hm
    obtain ⟨u, -, rfl⟩ := List.mem_map.mp hm
    have hbm := rebaseAt_matShaped b hb u
    rw [← h1.1, ← h1.2] at hbm
    exact matAdd_matShaped (rebaseAt_matShaped a ha u) hbm

lemma pmul_valid {a b r : PiecewisePolynomial} (ha : Valid a) (hb : Valid b)
    (h : pmul a b = .ok r) : Valid r := by
  unfold pmul at h
  split_ifs at h with h1 h2
  simp only [Except.ok.injEq] at h
  subst h
  refine uniform_valid_of (rows a) (cols b)
    (merged_two_le_length ha) (mergeTimes_sorted _ _) ?_ ?_
  · rw [List.length_map, List.length_dropLast]
  · intro m hm
    obtain ⟨u, -, rfl⟩ := List.mem_map.mp hm
    have hmm := matMul_matShaped (rebaseAt a u) (rebaseAt b u)
    rw [(rebaseAt_matShaped a ha u).1,
      matShaped_cols_eq (rebaseAt_matShaped b hb u) (valid_head_matShaped b hb)] at hmm
    exact hmm

/-! ### Claim theorems (first batch) -/

/-- C9: `derivative` with a non-positive order is the identity: for every
instance and every `derivative_order ≤ 0`, `derivative(derivative_order)`
returns an instance equal to the original (same breakpoints and identical
polynomial coefficients), rather than failing. -/
theorem C9_derivative_nonpositive_identity
    (pp : PiecewisePolynomial) (k : Int) (hk : k ≤ 0) :
    derivative pp k = pp := by
  unfold derivative
  rw [if_pos hk]

theorem C9_derivative_nonpositive_identity_witness :
    (0 : Int) ≤ 0 ∧ derivative ppS 0 = ppS :=
  ⟨le_refl 0, C9_derivative_nonpositive_identity ppS 0 (le_refl 0)⟩

/-- C10: `scalarValue` is observationally read-only: for every instance and
every `t`, `row`, `col`, after a call to `scalarValue(t, row, col)` the
instance's breakpoint sequence and all per-segment polynomial matrices equal
what they were before the call. -/
theorem C10_scalarValue_readonly
    (pp : PiecewisePolynomial) (t : ℚ) (row col : Nat) :
    (scalarValue pp t row col).2.segment_times = pp.segment_times ∧
    (scalarValue pp t row col).2.polynomials = pp.polynomials :=
  ⟨rfl, rfl⟩

/-- C6: construction from per-segment matrices plus a breakpoint sequence
fails with `InvalidArgument` exactly when the breakpoint count is not segment
count + 1, or the breakpoints are not strictly increasing, or the matrix
shapes differ across segments; otherwise it stores both as-is. -/
theorem C6_constructor_validation
    (polys : List PolyMatrix) (ts : List ℚ) :
    (∀ pp, mkPiecewisePolynomial polys ts = .ok pp ↔
      (ts.length = polys.length + 1 ∧ List.Pairwise (· < ·) ts ∧
       (∀ m ∈ polys, matDims m = matDims (polys.headD [])) ∧
       pp = { polynomials := polys, segment_times := ts })) ∧
    (mkPiecewisePolynomial polys ts = .error .invalidArgument ↔
      ¬ (ts.length = polys.length + 1 ∧ List.Pairwise (· < ·) ts ∧
         ∀ m ∈ polys, matDims m = matDims (polys.headD []))) := by
  by_cases h : ts.length = polys.length + 1 ∧ List.Pairwise (· < ·) ts ∧
      ∀ m ∈ polys, matDims m = matDims (polys.headD [])
  · refine ⟨fun pp => ?_, ?_⟩
    · rw [mkPiecewisePolynomial, if_pos h]
      constructor
      · intro he
        exact ⟨h.1, h.2.1, h.2.2, (Except.ok.inj he).symm⟩
      · rintro ⟨-, -, -, rfl⟩
        rfl
    · rw [mkPiecewisePolynomial, if_pos h]
      constructor
      · intro he
        cases he
      · intro hn
        exact absurd h hn
  · refine ⟨fun pp => ?_, ?_⟩
    · rw [mkPiecewisePolynomial, if_neg h]
      constructor
      · intro he
        cases he
      · rintro ⟨h1, h2, h3, -⟩
        exact absurd ⟨h1, h2, h3⟩ h
    · rw [mkPiecewisePolynomial, if_neg h]
      exact ⟨fun _ => h, fun _ => rfl⟩

/-- C7: `shiftRight(offset)` adds `offset` to every breakpoint in place and
leaves every polynomial coefficient of every segment entry unchanged;
consequently, for every valid instance and every `c`, applying
`shiftRight(c)` then `shiftRight(-c)` yields an instance `isApprox` to the
original. -/
theorem C7_shiftRight_translation
    (pp : PiecewisePolynomial) (c tol : ℚ) (_hv : Valid pp) (htol : 0 ≤ tol) :
    (shiftRight pp c).segment_times = pp.segment_times.map (fun t => t + c) ∧
    (shiftRight pp c).polynomials = pp.polynomials ∧
    isApprox (shiftRight (shiftRight pp c) (-c)) pp tol = true :=
  ⟨rfl, rfl, by rw [shiftRight_shiftRight_neg]; exact isApprox_self pp tol htol⟩

theorem C7_shiftRight_translation_witness :
    Valid ppS ∧ (0 : ℚ) ≤ 0 ∧
    isApprox (shiftRight (shiftRight ppS 3) (-3)) ppS 0 = true :=
  ⟨by decide, le_refl 0, (C7_shiftRight_translation ppS 3 0 (by decide) (le_refl 0)).2.2⟩

/-- C3: differentiation inverts integration: for every valid instance `P`
(and any choice of scalar or matrix start value, i.e. any constant of
integration), `derivative(1)` applied to the result of `integral` recovers
`P` exactly — same breakpoints and the same polynomial coefficients in every
segment entry. -/
theorem C3_derivative_integral_roundtrip
    (pp : PiecewisePolynomial) (v : ℚ) (cm : NumMatrix) (_hv : Valid pp) :
    derivative (integral pp v) 1 = pp ∧ derivative (integralMat pp cm) 1 = pp :=
  ⟨derivative_integralMat pp _, derivative_integralMat pp cm⟩

theorem C3_derivative_integral_roundtrip_witness :
    Valid ppS ∧ derivative (integral ppS 5) 1 = ppS :=
  ⟨by decide, (C3_derivative_integral_roundtrip ppS 5 [[5]] (by decide)).1⟩

/-- C2: the result of `integral` is continuous at every internal breakpoint:
for every valid instance and every internal breakpoint `t_{i+1}`
(`i + 1 < n`), evaluating the integrated instance's segment `i` polynomial at
its end (local coordinate = its duration, global time `t_{i+1}`) equals
evaluating segment `i + 1`'s polynomial at its local start `s = 0` — here
exactly, over ℚ, hence within any floating tolerance; and the antiderivative
of segment 0 evaluated at `s = 0` equals the supplied start value (the
matrix overload's matrix, or the scalar broadcast to all entries). -/
theorem C2_integral_continuity
    (pp : PiecewisePolynomial) (cm : NumMatrix) (v : ℚ)
    (hv : Valid pp) (hcm : matShaped (rows pp) (cols pp) cm) :
    matEval ((integralMat pp cm).polynomials.getD 0 []) 0 = cm ∧
    matEval ((integral pp v).polynomials.getD 0 []) 0 =
      constMatrix (rows pp) (cols pp) v ∧
    ∀ i, i + 1 < numberOfSegments pp →
      (matEval ((integralMat pp cm).polynomials.getD (i + 1) []) 0 =
        matEval ((integralMat pp cm).polynomials.getD i [])
          ((segmentDurations pp.segment_times).getD i 0)) ∧
      (matEval ((integral pp v).polynomials.getD (i + 1) []) 0 =
        matEval ((integral pp v).polynomials.getD i [])
          ((segmentDurations pp.segment_times).getD i 0)) := by
  obtain ⟨hlen, hsort, hpos, hshape⟩ := hv
  have hsh : ∀ m ∈ pp.polynomials, shapeOf m = List.replicate (rows pp) (cols pp) :=
    fun m hm => matShaped_shapeOf (hshape m hm)
  have hfirst : ∀ (cm' : NumMatrix), shapeOf cm' = List.replicate (rows pp) (cols pp) →
      matEval ((integralMat pp cm').polynomials.getD 0 []) 0 = cm' := by
    intro cm' hcm'
    cases hpp : pp.polynomials with
    | nil => rw [hpp] at hpos; cases hpos
    | cons m ms =>
      simp only [integralMat, hpp, integralSegs, List.getD_cons_zero]
      exact matEval_matAntideriv_zero m cm'
        (by rw [hcm', hsh m (hpp ▸ List.mem_cons_self _ _)])
  have hcmsh : shapeOf cm = List.replicate (rows pp) (cols pp) := matShaped_shapeOf hcm
  have hconst : shapeOf (constMatrix (rows pp) (cols pp) v) =
      List.replicate (rows pp) (cols pp) :=
    matShaped_shapeOf (constMatrix_matShaped _ _ _)
  refine ⟨hfirst cm hcmsh, hfirst _ hconst, ?_⟩
  intro i hi
  constructor
  · exact integralSegs_chain pp.polynomials (segmentDurations pp.segment_times) cm
      (List.replicate (rows pp) (cols pp)) hsh hcmsh i hi
  · exact integralSegs_chain pp.polynomials (segmentDurations pp.segment_times)
      (constMatrix (rows pp) (cols pp) v)
      (List.replicate (rows pp) (cols pp)) hsh hconst i hi

/-- C1 counterexample: the claim says `value(t) = value(t₀)` for `t < t₀`,
but the modelled evaluation (spec §4.1: out-of-domain evaluation
extrapolates using the edge segment's polynomial at `s = t - t₀`) gives
`value(-1) = [[-1]] ≠ [[0]] = value(0)` on the valid instance `ppS`, whose
first segment entry is the non-constant polynomial `s`. -/
theorem C1_clamp_counterexample :
    Valid ppS ∧ (-1 : ℚ) < startTime ppS ∧
    value ppS (-1) ≠ value ppS (startTime ppS) := by
  refine ⟨by decide, by decide, ?_⟩
  simp [value, ppS, segmentIndexAtTime, matEval, polyEval, startTime]

/-- C1 (amended): segment lookup clamps to the edge segments and no
out-of-domain evaluation fails: for every valid instance, lookup always
returns an in-range index; for `t < t₀` it returns segment 0 and `value(t)`
is segment 0's matrix evaluated (extrapolated) at local coordinate `t - t₀`;
for `t ≥ tₙ` it returns segment `n - 1` and `value(t)` is segment `n - 1`'s
matrix evaluated at `t - t_{n-1}` (so `value(t)` equals `value(t₀)` resp.
`value(tₙ)` only when that edge polynomial is constant, not in general). -/
theorem C1_clamp_extrapolation
    (pp : PiecewisePolynomial) (t : ℚ) (hv : Valid pp) :
    segmentIndexAtTime pp t < numberOfSegments pp ∧
    (t < startTime pp →
      segmentIndexAtTime pp t = 0 ∧
      value pp t = matEval (pp.polynomials.getD 0 []) (t - startTime pp)) ∧
    (endTime pp ≤ t →
      segmentIndexAtTime pp t = numberOfSegments pp - 1 ∧
      value pp t = matEval (pp.polynomials.getD (numberOfSegments pp - 1) [])
        (t - pp.segment_times.getD (numberOfSegments pp - 1) 0)) := by
  refine ⟨segmentIndexAtTime_lt pp hv t, fun hlow => ?_, fun hhigh => ?_⟩
  · have hi := segmentIndexAtTime_low pp hv hlow
    refine ⟨hi, ?_⟩
    simp only [value, hi, getD_zero_headD]
    rfl
  · have hi := segmentIndexAtTime_high pp hv hhigh
    exact ⟨hi, by simp only [value, hi]⟩

theorem C1_clamp_extrapolation_witness :
    Valid ppS ∧
    ((-1 : ℚ) < startTime ppS ∧ segmentIndexAtTime ppS (-1) = 0 ∧
      value ppS (-1) = matEval (ppS.polynomials.getD 0 []) (-1 - startTime ppS)) ∧
    (endTime ppS ≤ (5 : ℚ) ∧ segmentIndexAtTime ppS 5 = numberOfSegments ppS - 1) :=
  ⟨by decide,
    ⟨by decide, (C1_clamp_extrapolation ppS (-1) (by decide)).2.1 (by decide)⟩,
    ⟨by decide, ((C1_clamp_extrapolation ppS 5 (by decide)).2.2 (by decide)).1⟩⟩

unseal List.merge List.mergeSort in
lemma mergeTimes_concrete : mergeTimes [0, 2] [0, 1, 2] = [0, 1, 2] := by decide

lemma padd_ppA_ppB : padd ppA ppB = .ok ppAB := by
  rw [padd, if_neg (by decide), if_neg (by decide)]
  have hm : mergeTimes ppA.segment_times ppB.segment_times = [0, 1, 2] := mergeTimes_concrete
  rw [hm]
  simp only [List.dropLast, List.map_cons, List.map_nil]
  simp [rebaseAt, ppA, ppB, ppAB, segmentIndexAtTime, polyShift, polyMul, polyAdd, matAdd]
  norm_num

lemma value_ppAB (t : ℚ) : value ppAB t = [[2]] := by
  rcases le_or_lt 1 t with h | h
  · simp [value, ppAB, segmentIndexAtTime, matEval, polyEval, List.countP_cons, h]
  · simp [value, ppAB, segmentIndexAtTime, matEval, polyEval, List.countP_cons, not_le.mpr h]

/-- C4: addition of operands with different breakpoint sequences uses the
sorted union of both breakpoint sets over the (identical) overlapping
domain, re-basing each source polynomial to the new segment's local
coordinate; in particular, for two 1×1 instances constant 1 with breakpoints
`[0, 2]` and `[0, 1, 2]`, the sum's breakpoint set is `[0, 1, 2]` and the
sum evaluates to 2 at every `t` in `[0, 2]`. -/
theorem C4_addition_sorted_union :
    (∀ a b r, padd a b = .ok r →
      r.segment_times = mergeTimes a.segment_times b.segment_times ∧
      r.polynomials = (mergeTimes a.segment_times b.segment_times).dropLast.map
        (fun u => matAdd (rebaseAt a u) (rebaseAt b u))) ∧
    padd ppA ppB = .ok ppAB ∧
    ppAB.segment_times = [0, 1, 2] ∧
    ∀ t : ℚ, 0 ≤ t → t ≤ 2 → value ppAB t = [[2]] := by
  refine ⟨?_, padd_ppA_ppB, rfl, fun t _ _ => value_ppAB t⟩
  intro a b r h
  rw [padd] at h
  split_ifs at h
  exact ⟨(congrArg PiecewisePolynomial.segment_times (Except.ok.inj h)).symm,
    (congrArg PiecewisePolynomial.polynomials (Except.ok.inj h)).symm⟩

theorem C4_addition_sorted_union_witness :
    (0 : ℚ) ≤ 1 ∧ (1 : ℚ) ≤ 2 ∧ value ppAB 1 = [[2]] :=
  ⟨by decide, by decide, C4_addition_sorted_union.2.2.2 1 (by decide) (by decide)⟩

/-- C5: failure atomicity: `operator+`/`operator*` either fully succeed
returning a valid instance (given valid operands), or fail; the in-place
operators, modelled per spec §9 as compute-then-swap, leave the receiver in
its prior state on failure and hold exactly the pure operators' result on
success. -/
theorem C5_failure_atomicity (a b : PiecewisePolynomial) :
    (Valid a → Valid b → ∀ r, padd a b = .ok r → Valid r) ∧
    (Valid a → Valid b → ∀ r, pmul a b = .ok r → Valid r) ∧
    (∀ e, (paddAssign a b).2 = some e → (paddAssign a b).1 = a) ∧
    (∀ e, (pmulAssign a b).2 = some e → (pmulAssign a b).1 = a) ∧
    ((paddAssign a b).2 = none → padd a b = .ok (paddAssign a b).1) ∧
    ((pmulAssign a b).2 = none → pmul a b = .ok (pmulAssign a b).1) := by
  refine ⟨fun ha hb r h => padd_valid ha hb h,
    fun ha hb r h => pmul_valid ha hb h, ?_, ?_, ?_, ?_⟩
  · intro e he
    cases hp : padd a b with
    | ok r => simp [paddAssign, hp] at he
    | error err => simp [paddAssign, hp]
  · intro e he
    cases hp : pmul a b with
    | ok r => simp [pmulAssign, hp] at he
    | error err => simp [pmulAssign, hp]
  · intro hn
    cases hp : padd a b with
    | ok r => simp [paddAssign, hp]
    | error err => simp [paddAssign, hp] at hn
  · intro hn
    cases hp : pmul a b with
    | ok r => simp [pmulAssign, hp]
    | error err => simp [pmulAssign, hp] at hn

theorem C5_failure_atomicity_witness :
    Valid ppA ∧ Valid ppB ∧ padd ppA ppB = Except.ok ppAB ∧ Valid ppAB :=
  ⟨by decide, by decide, padd_ppA_ppB,
    (C5_failure_atomicity ppA ppB).1 (by decide) (by decide) ppAB padd_ppA_ppB⟩

lemma valid_two_le_times (pp : PiecewisePolynomial) (hv : Valid pp) :
    2 ≤ pp.segment_times.length := by
  have h1 := hv.1
  have h2 := hv.2.2.1
  omega

lemma map_entries_matShaped {R C : Nat} {m : PolyMatrix} (h : matShaped R C m)
    (g : Poly → Poly) : matShaped R C (m.map (fun row => row.map g)) := by
  constructor
  · simpa using h.1
  · intro row hrow
    obtain ⟨r0, hr0, rfl⟩ := List.mem_map.mp hrow
    simpa using h.2 r0 hr0

lemma mapmap_cols (m : PolyMatrix) (g : Poly → Poly) :
    matCols (m.map (fun row => row.map g)) = matCols m := by
  cases m with
  | nil => rfl
  | cons r l => simp [matCols]

lemma matAntideriv_matShaped {R C : Nat} {m : PolyMatrix} (h : matShaped R C m)
    (cm : NumMatrix) : matShaped R C (matAntideriv m cm) :=
  matShaped_of_shapeOf (by rw [shapeOf_matAntideriv]; exact matShaped_shapeOf h)

lemma matAntideriv_length (m : PolyMatrix) (cm : NumMatrix) :
    (matAntideriv m cm).length = m.length := by
  have := congrArg List.length (shapeOf_matAntideriv m cm)
  simpa [shapeOf] using this

lemma matAntideriv_cols (m : PolyMatrix) (cm : NumMatrix) :
    matCols (matAntideriv m cm) = matCols m := by
  cases m with
  | nil => rfl
  | cons row rws => simp [matAntideriv, matCols, rowAntideriv_length]

lemma integralSegs_length (ms : List PolyMatrix) :
    ∀ (durs : List ℚ) (cm : NumMatrix), (integralSegs ms durs cm).length = ms.length := by
  induction ms with
  | nil => intro durs cm; rfl
  | cons m ms ih => intro durs cm; simp [integralSegs, ih]

lemma integralSegs_matShaped {R C : Nat} (ms : List PolyMatrix) :
    ∀ (durs : List ℚ) (cm : NumMatrix), (∀ m ∈ ms, matShaped R C m) →
      ∀ m' ∈ integralSegs ms durs cm, matShaped R C m' := by
  induction ms with
  | nil => intro durs cm _ m' h; cases h
  | cons m ms ih =>
    intro durs cm hsh m' hm'
    rcases List.mem_cons.mp hm' with rfl | h'
    · exact matAntideriv_matShaped (hsh m (List.mem_cons_self _ _)) cm
    · exact ih _ _ (fun x hx => hsh x (List.mem_cons_of_mem _ hx)) m' h'

lemma derivative_valid (pp : PiecewisePolynomial) (k : Int) (hv : Valid pp) :
    Valid (derivative pp k) ∧ rows (derivative pp k) = rows pp ∧
    cols (derivative pp k) = cols pp := by
  unfold derivative
  split_ifs with hk
  · exact ⟨hv, rfl, rfl⟩
  · cases hp : pp.polynomials with
    | nil =>
      exfalso
      have := hv.2.2.1
      rw [hp] at this
      exact absurd this (by simp)
    | cons m ms =>
      have hrows : rows pp = m.length := by rw [rows, hp, List.headD_cons]
      have hcols : cols pp = matCols m := by rw [cols, hp, List.headD_cons]
      have hmem : ∀ m' ∈ pp.polynomials, matShaped (rows pp) (cols pp) m' := hv.2.2.2
      have hv1 := hv.1
      rw [hp] at hv1
      refine ⟨?_, ?_, ?_⟩
      · refine uniform_valid_of (rows pp) (cols pp) (valid_two_le_times pp hv)
          hv.2.1 ?_ ?_
        · rw [List.length_map]
          omega
        · intro m' hm'
          obtain ⟨m₀, hm₀, rfl⟩ := List.mem_map.mp hm'
          exact map_entries_matShaped (hmem m₀ (by rw [hp]; exact hm₀)) _
      · simp only [rows, List.map_cons, List.headD_cons, List.length_map, hrows]
        rw [hp, List.headD_cons]
      · simp only [cols, List.map_cons, List.headD_cons, mapmap_cols, hcols]
        rw [hp, List.headD_cons]

lemma integralMat_valid (pp : PiecewisePolynomial) (cm : NumMatrix) (hv : Valid pp) :
    Valid (integralMat pp cm) ∧ rows (integralMat pp cm) = rows pp ∧
    cols (integralMat pp cm) = cols pp := by
  cases hp : pp.polynomials with
  | nil =>
    exfalso
    have := hv.2.2.1
    rw [hp] at this
    exact absurd this (by simp)
  | cons m ms =>
    have hrows : rows pp = m.length := by rw [rows, hp, List.headD_cons]
    have hcols : cols pp = matCols m := by rw [cols, hp, List.headD_cons]
    refine ⟨?_, ?_, ?_⟩
    · refine uniform_valid_of (rows pp) (cols pp) (valid_two_le_times pp hv)
        hv.2.1 ?_ ?_
      · rw [integralSegs_length]
        have := hv.1
        omega
      · exact integralSegs_matShaped pp.polynomials _ _ hv.2.2.2
    · rw [rows, integralMat, hp, integralSegs, List.headD_cons, matAntideriv_length, hrows]
    · rw [cols, integralMat, hp, integralSegs, List.headD_cons, matAntideriv_cols, hcols]

lemma shiftRight_valid (pp : PiecewisePolynomial) (c : ℚ) (hv : Valid pp) :
    Valid (shiftRight pp c) ∧ rows (shiftRight pp c) = rows pp ∧
    cols (shiftRight pp c) = cols pp := by
  refine ⟨⟨?_, ?_, hv.2.2.1, ?_⟩, rfl, rfl⟩
  · simpa [shiftRight] using hv.1
  · simp only [shiftRight]
    rw [List.pairwise_map]
    exact hv.2.1.imp (fun h => add_lt_add_right h c)
  · intro m hm
    exact hv.2.2.2 m hm

/-- C8: uniform-dimension invariant: every segment matrix of a valid
instance has the same shape `(R, C)` where `R = rows()` and `C = cols()`
(and a zero-segment instance reports 0 for both); the invariant — together
with `rows`/`cols` — is preserved by `derivative`, `integral`, addition,
multiplication, and `shiftRight`. -/
theorem C8_uniform_dimension
    (pp : PiecewisePolynomial) (k : Int) (v c : ℚ) (hv : Valid pp) :
    (∀ m ∈ pp.polynomials, matShaped (rows pp) (cols pp) m) ∧
    (Valid (derivative pp k) ∧ rows (derivative pp k) = rows pp ∧
      cols (derivative pp k) = cols pp) ∧
    (Valid (integral pp v) ∧ rows (integral pp v) = rows pp ∧
      cols (integral pp v) = cols pp) ∧
    (Valid (shiftRight pp c) ∧ rows (shiftRight pp c) = rows pp ∧
      cols (shiftRight pp c) = cols pp) ∧
    (∀ b r, Valid b → padd pp b = .ok r → Valid r) ∧
    (∀ b r, Valid b → pmul pp b = .ok r → Valid r) ∧
    (∀ ts : List ℚ, rows { polynomials := [], segment_times := ts } = 0 ∧
      cols { polynomials := [], segment_times := ts } = 0) :=
  ⟨hv.2.2.2, derivative_valid pp k hv, integralMat_valid pp _ hv,
    shiftRight_valid pp c hv,
    fun _ _ hb h => padd_valid hv hb h,
    fun _ _ hb h => pmul_valid hv hb h,
    fun _ => ⟨rfl, rfl⟩⟩

theorem C8_uniform_dimension_witness :
    Valid ppS ∧ Valid (derivative ppS 1) ∧ Valid (integral ppS 0) ∧
    Valid (shiftRight ppS 1) :=
  ⟨by decide,
    (C8_uniform_dimension ppS 1 0 1 (by decide)).2.1.1,
    (C8_uniform_dimension ppS 1 0 1 (by decide)).2.2.1.1,
    (C8_uniform_dimension ppS 1 0 1 (by decide)).2.2.2.1.1⟩

theorem C2_integral_continuity_witness :
    Valid ppS ∧ matShaped (rows ppS) (cols ppS) [[5]] ∧
    matEval ((integralMat ppS [[5]]).polynomials.getD 1 []) 0 =
      matEval ((integralMat ppS [[5]]).polynomials.getD 0 [])
        ((segmentDurations ppS.segment_times).getD 0 0) :=
  ⟨by decide, by decide,
    ((C2_integral_continuity ppS [[5]] 5 (by decide) (by decide)).2.2 0 (by decide)).1⟩

end Drake
